import Mathlib

/-
Verification of the QUBO construction engine and the solution post-processing
pipeline of the annealing backend (backend/knapsack.py, backend/decoders.py,
backend/solver.py, backend/main.py).

Python dictionaries are modelled as association lists in insertion order with
unique keys maintained by the update-or-append operation dictAdd. Python floats
are modelled as exact rationals, so every floating-point statement below is a
statement of mathematical (exact-arithmetic) equivalence.
-/

/-- Update-or-append on an association list: the semantics of a Python dict
assignment d[k] = d.get(k, default) + v. If the key is present its (first)
entry is updated in place, otherwise the pair is appended at the end, which is
exactly the insertion-order behaviour of a Python dict or defaultdict. -/
def dictAdd {κ ν : Type} [DecidableEq κ] [Add ν] : List (κ × ν) → κ → ν → List (κ × ν)
  | [], k, v => [(k, v)]
  | e :: rest, k, v => if e.1 = k then (k, e.2 + v) :: rest else e :: dictAdd rest k v

/-- First-match lookup on an association list, the semantics of d.get(k). -/
def dictFind {κ ν : Type} [DecidableEq κ] : List (κ × ν) → κ → Option ν
  | [], _ => none
  | e :: rest, k => if e.1 = k then some e.2 else dictFind rest k

/-- Lookup with default zero, the semantics of d.get(k, 0). -/
def dictLookup {κ ν : Type} [DecidableEq κ] [Zero ν] (l : List (κ × ν)) (k : κ) : ν :=
  (dictFind l k).getD 0

/-- Helper add_Q from build_knapsack_qubo (knapsack.py): canonicalizes the pair
so that the first index is at most the second, then accumulates into Q. -/
def add_Q (Q : List ((ℕ × ℕ) × ℚ)) (i j : ℕ) (value : ℚ) : List ((ℕ × ℕ) × ℚ) :=
  if i > j then dictAdd Q (j, i) value else dictAdd Q (i, j) value

/-- Ceiling of the base-2 logarithm, computed by structural recursion on a fuel
bound so that it evaluates by kernel reduction. For n at most fuel this equals
Nat.clog 2 n, which is the exact value of math.ceil(math.log2(n)) with the
real-valued logarithm modelled exactly. -/
def ceilLog2Fuel : ℕ → ℕ → ℕ
  | 0, _ => 0
  | fuel + 1, n => if n ≤ 1 then 0 else ceilLog2Fuel fuel ((n + 1) / 2) + 1

/-- Number of slack bits chosen by build_knapsack_qubo:
math.ceil(math.log2(capacity + 1)), the least m with 2 ^ m - 1 >= capacity. -/
def m_slack (capacity : ℤ) : ℕ :=
  ceilLog2Fuel (capacity.toNat + 1) (capacity.toNat + 1)

/-- Coefficient vector a of build_knapsack_qubo: a[i] = w_i for the items,
followed by a[n_items + k] = 2 ^ k for the slack bits. -/
def coeff_vector (weights : List ℤ) (m : ℕ) : List ℚ :=
  weights.map (fun w : ℤ => (w : ℚ)) ++ (List.range m).map (fun k => (2 : ℚ) ^ k)

/-- Objective loop of build_knapsack_qubo: add_Q(i, i, -v_i) for each value. -/
def knapsack_objective_Q (values : List ℚ) : List ((ℕ × ℕ) × ℚ) :=
  (List.range values.length).foldl (fun Q i => add_Q Q i i (-(values.getD i 0))) []

/-- Diagonal loop of build_knapsack_qubo:
add_Q(u, u, penalty * (a_u * a_u - 2 * capacity * a_u)) for every variable u. -/
def knapsack_diag_Q (a : List ℚ) (capacity : ℤ) (penalty : ℚ)
    (Q0 : List ((ℕ × ℕ) × ℚ)) : List ((ℕ × ℕ) × ℚ) :=
  (List.range a.length).foldl
    (fun Q u => add_Q Q u u (penalty * (a.getD u 0 * a.getD u 0 - 2 * (capacity : ℚ) * a.getD u 0)))
    Q0

/-- Off-diagonal double loop of build_knapsack_qubo:
add_Q(u, v, 2 * penalty * a_u * a_v) for every u < v. -/
def knapsack_offdiag_Q (a : List ℚ) (penalty : ℚ)
    (Q0 : List ((ℕ × ℕ) × ℚ)) : List ((ℕ × ℕ) × ℚ) :=
  (List.range a.length).foldl
    (fun Q u =>
      (List.range' (u + 1) (a.length - (u + 1))).foldl
        (fun Q v => add_Q Q u v (2 * penalty * a.getD u 0 * a.getD v 0)) Q)
    Q0

/-- build_knapsack_qubo (knapsack.py): validates the inputs, synthesizes the
slack bits, and accumulates the objective, diagonal and off-diagonal penalty
terms of H = -sum v_i x_i + penalty * (sum w_i x_i + sum 2^k y_k - capacity)^2,
dropping the constant penalty * capacity^2. -/
def build_knapsack_qubo (weights : List ℤ) (values : List ℚ) (capacity : ℤ)
    (penalty : ℚ) : Except String (List ((ℕ × ℕ) × ℚ)) :=
  if weights.length ≠ values.length then
    Except.error ("weights and values must have the same length")
  else if capacity ≤ 0 then
    Except.error ("capacity must be a positive integer")
  else
    let a := coeff_vector weights (m_slack capacity)
    Except.ok (knapsack_offdiag_Q a penalty
      (knapsack_diag_Q a capacity penalty (knapsack_objective_Q values)))

/-- Energy of a QUBO mapping at an assignment z: the sum over all stored keys
(i, j) of Q[(i, j)] * z_i * z_j. -/
def quboEnergy (Q : List ((ℕ × ℕ) × ℚ)) (z : ℕ → ℚ) : ℚ :=
  (Q.map (fun e => e.2 * (z e.1.1 * z e.1.2))).sum

-- ===== basic dictAdd lemmas =====

theorem quboEnergy_nil (z : ℕ → ℚ) : quboEnergy [] z = 0 := rfl

theorem quboEnergy_dictAdd (Q : List ((ℕ × ℕ) × ℚ)) (k : ℕ × ℕ) (v : ℚ) (z : ℕ → ℚ) :
    quboEnergy (dictAdd Q k v) z = quboEnergy Q z + v * (z k.1 * z k.2) := by
  induction Q with
  | nil => simp [dictAdd, quboEnergy]
  | cons e rest ih =>
    simp only [dictAdd, quboEnergy, List.map_cons, List.sum_cons] at *
    by_cases h : e.1 = k
    · rw [if_pos h, List.map_cons, List.sum_cons, h]
      ring
    · rw [if_neg h, List.map_cons, List.sum_cons, ih]
      ring

theorem quboEnergy_add_Q (Q : List ((ℕ × ℕ) × ℚ)) (i j : ℕ) (v : ℚ) (z : ℕ → ℚ) :
    quboEnergy (add_Q Q i j v) z = quboEnergy Q z + v * (z i * z j) := by
  unfold add_Q
  split
  · rw [quboEnergy_dictAdd]; ring
  · rw [quboEnergy_dictAdd]

-- ===== energy of the three accumulation loops =====

theorem energy_obj_fold (values : List ℚ) (z : ℕ → ℚ) (l : List ℕ) :
    ∀ Q0, quboEnergy (l.foldl (fun Q i => add_Q Q i i (-(values.getD i 0))) Q0) z
      = quboEnergy Q0 z + (l.map (fun i => (-(values.getD i 0)) * (z i * z i))).sum := by
  induction l with
  | nil => intro Q0; simp
  | cons x xs ih =>
    intro Q0
    simp only [List.foldl_cons, List.map_cons, List.sum_cons]
    rw [ih, quboEnergy_add_Q]
    ring

theorem energy_diag_fold (a : List ℚ) (capacity : ℤ) (penalty : ℚ) (z : ℕ → ℚ) (l : List ℕ) :
    ∀ Q0, quboEnergy (l.foldl
        (fun Q u => add_Q Q u u (penalty * (a.getD u 0 * a.getD u 0 - 2 * (capacity : ℚ) * a.getD u 0)))
        Q0) z
      = quboEnergy Q0 z
        + (l.map (fun u =>
            (penalty * (a.getD u 0 * a.getD u 0 - 2 * (capacity : ℚ) * a.getD u 0)) * (z u * z u))).sum := by
  induction l with
  | nil => intro Q0; simp
  | cons x xs ih =>
    intro Q0
    simp only [List.foldl_cons, List.map_cons, List.sum_cons]
    rw [ih, quboEnergy_add_Q]
    ring

theorem energy_offdiag_inner_fold (a : List ℚ) (penalty : ℚ) (z : ℕ → ℚ) (u : ℕ) (l : List ℕ) :
    ∀ Q0, quboEnergy (l.foldl
        (fun Q v => add_Q Q u v (2 * penalty * a.getD u 0 * a.getD v 0)) Q0) z
      = quboEnergy Q0 z
        + (l.map (fun v => (2 * penalty * a.getD u 0 * a.getD v 0) * (z u * z v))).sum := by
  induction l with
  | nil => intro Q0; simp
  | cons x xs ih =>
    intro Q0
    simp only [List.foldl_cons, List.map_cons, List.sum_cons]
    rw [ih, quboEnergy_add_Q]
    ring

theorem energy_offdiag_fold (a : List ℚ) (penalty : ℚ) (z : ℕ → ℚ) (l : List ℕ) :
    ∀ Q0, quboEnergy (l.foldl
        (fun Q u =>
          (List.range' (u + 1) (a.length - (u + 1))).foldl
            (fun Q v => add_Q Q u v (2 * penalty * a.getD u 0 * a.getD v 0)) Q)
        Q0) z
      = quboEnergy Q0 z
        + (l.map (fun u =>
            ((List.range' (u + 1) (a.length - (u + 1))).map
              (fun v => (2 * penalty * a.getD u 0 * a.getD v 0) * (z u * z v))).sum)).sum := by
  induction l with
  | nil => intro Q0; simp
  | cons x xs ih =>
    intro Q0
    simp only [List.foldl_cons, List.map_cons, List.sum_cons]
    rw [ih, energy_offdiag_inner_fold]
    ring

-- ===== summation lemmas =====

theorem list_sum_map_range {M : Type} [AddCommMonoid M] (f : ℕ → M) (n : ℕ) :
    ((List.range n).map f).sum = ∑ i ∈ Finset.range n, f i := by
  induction n with
  | zero => simp
  | succ n ih =>
    rw [List.range_succ, List.map_append, List.sum_append, Finset.sum_range_succ, ih]
    simp

theorem list_sum_map_range' (f : ℕ → ℚ) (n : ℕ) :
    ∀ s, ((List.range' s n).map f).sum = ∑ t ∈ Finset.range n, f (s + t) := by
  induction n with
  | zero => intro s; simp
  | succ n ih =>
    intro s
    rw [List.range'_succ, List.map_cons, List.sum_cons, ih (s + 1),
      Finset.sum_range_succ' (fun t => f (s + t)) n]
    rw [add_comm (f s)]
    congr 1
    refine Finset.sum_congr rfl fun t _ => ?_
    congr 1
    omega

theorem sum_range_add_split (f : ℕ → ℚ) (n m : ℕ) :
    ∑ u ∈ Finset.range (n + m), f u
      = ∑ u ∈ Finset.range n, f u + ∑ k ∈ Finset.range m, f (n + k) := by
  induction m with
  | zero => simp
  | succ m ih =>
    have h : n + (m + 1) = (n + m) + 1 := by omega
    rw [h, Finset.sum_range_succ, ih, Finset.sum_range_succ]
    ring

theorem sq_sum (f : ℕ → ℚ) (n : ℕ) :
    (∑ u ∈ Finset.range n, f u) ^ 2
      = ∑ u ∈ Finset.range n, f u ^ 2
        + 2 * ∑ v ∈ Finset.range n, (∑ u ∈ Finset.range v, f u) * f v := by
  induction n with
  | zero => simp
  | succ n ih =>
    rw [Finset.sum_range_succ, Finset.sum_range_succ (fun u => f u ^ 2),
      Finset.sum_range_succ (fun v => (∑ u ∈ Finset.range v, f u) * f v)]
    linear_combination ih

theorem sum_triangle_swap (g : ℕ → ℕ → ℚ) (n : ℕ) :
    ∑ u ∈ Finset.range n, ∑ t ∈ Finset.range (n - (u + 1)), g u (u + 1 + t)
      = ∑ v ∈ Finset.range n, ∑ u ∈ Finset.range v, g u v := by
  induction n with
  | zero => simp
  | succ n ih =>
    rw [Finset.sum_range_succ, Finset.sum_range_succ
      (fun v => ∑ u ∈ Finset.range v, g u v)]
    have hlast : ∑ t ∈ Finset.range (n + 1 - (n + 1)), g n (n + 1 + t) = 0 := by
      simp
    have hsplit : ∀ u ∈ Finset.range n,
        ∑ t ∈ Finset.range (n + 1 - (u + 1)), g u (u + 1 + t)
          = ∑ t ∈ Finset.range (n - (u + 1)), g u (u + 1 + t) + g u n := by
      intro u hu
      have hu' : u < n := Finset.mem_range.mp hu
      have h1 : n + 1 - (u + 1) = (n - (u + 1)) + 1 := by omega
      rw [h1, Finset.sum_range_succ]
      have h2 : u + 1 + (n - (u + 1)) = n := by omega
      rw [h2]
    rw [hlast, Finset.sum_congr rfl hsplit, Finset.sum_add_distrib, ih]
    ring

-- ===== coefficient vector lemmas =====

theorem coeff_vector_length (weights : List ℤ) (m : ℕ) :
    (coeff_vector weights m).length = weights.length + m := by
  rw [coeff_vector, List.length_append, List.length_map, List.length_map, List.length_range]

theorem coeff_vector_item : ∀ (weights : List ℤ) (m i : ℕ), i < weights.length →
    (coeff_vector weights m).getD i 0 = ((weights.getD i 0 : ℤ) : ℚ)
  | [], _, i, h => by simp at h
  | w :: ws, m, 0, _ => by simp [coeff_vector]
  | w :: ws, m, i + 1, h => by
    have ih := coeff_vector_item ws m i (by simpa using h)
    simpa [coeff_vector, List.getD_cons_succ] using ih

theorem getD_map_range_pow (m k : ℕ) (hk : k < m) :
    ((List.range m).map (fun k => (2 : ℚ) ^ k)).getD k 0 = (2 : ℚ) ^ k := by
  rw [List.getD_eq_getElem?_getD, List.getElem?_map, List.getElem?_range hk]
  simp

theorem coeff_vector_slack : ∀ (weights : List ℤ) (m k : ℕ), k < m →
    (coeff_vector weights m).getD (weights.length + k) 0 = (2 : ℚ) ^ k
  | [], m, k, hk => by
    simpa [coeff_vector] using getD_map_range_pow m k hk
  | w :: ws, m, k, hk => by
    have h : (w :: ws).length + k = (ws.length + k) + 1 := by
      simp only [List.length_cons]
      omega
    rw [h]
    simp only [coeff_vector, List.map_cons, List.cons_append, List.getD_cons_succ]
    exact coeff_vector_slack ws m k hk

-- ===== the squared-penalty expansion identity =====

theorem penalty_expansion (A z : ℕ → ℚ) (P C : ℚ) (L : ℕ)
    (hz : ∀ u, z u = 0 ∨ z u = 1) :
    (∑ u ∈ Finset.range L, (P * (A u * A u - 2 * C * A u)) * (z u * z u))
      + ∑ u ∈ Finset.range L, ∑ t ∈ Finset.range (L - (u + 1)),
          (2 * P * A u * A (u + 1 + t)) * (z u * z (u + 1 + t))
      = P * ((∑ u ∈ Finset.range L, A u * z u) - C) ^ 2 - P * C ^ 2 := by
  have hswap := sum_triangle_swap (fun u v => (2 * P * A u * A v) * (z u * z v)) L
  have hcross : ∑ v ∈ Finset.range L, ∑ u ∈ Finset.range v,
        (2 * P * A u * A v) * (z u * z v)
      = 2 * P * ∑ v ∈ Finset.range L,
          (∑ u ∈ Finset.range v, A u * z u) * (A v * z v) := by
    rw [Finset.mul_sum]
    refine Finset.sum_congr rfl fun v _ => ?_
    rw [Finset.sum_mul, Finset.mul_sum]
    refine Finset.sum_congr rfl fun u _ => ?_
    ring
  have hdiag : ∑ u ∈ Finset.range L, (P * (A u * A u - 2 * C * A u)) * (z u * z u)
      = P * (∑ u ∈ Finset.range L, (A u * z u) ^ 2)
        - 2 * P * C * ∑ u ∈ Finset.range L, A u * z u := by
    rw [Finset.mul_sum, Finset.mul_sum, ← Finset.sum_sub_distrib]
    refine Finset.sum_congr rfl fun u _ => ?_
    rcases hz u with h | h <;> rw [h] <;> ring
  have hsq := sq_sum (fun u => A u * z u) L
  rw [hswap, hcross, hdiag]
  linear_combination (-P) * hsq

-- ===== energy of the build stages =====

theorem quboEnergy_objective (values : List ℚ) (z : ℕ → ℚ) :
    quboEnergy (knapsack_objective_Q values) z
      = ∑ i ∈ Finset.range values.length, (-(values.getD i 0)) * (z i * z i) := by
  unfold knapsack_objective_Q
  rw [energy_obj_fold, quboEnergy_nil, list_sum_map_range, zero_add]

theorem quboEnergy_diag (a : List ℚ) (capacity : ℤ) (penalty : ℚ)
    (Q0 : List ((ℕ × ℕ) × ℚ)) (z : ℕ → ℚ) :
    quboEnergy (knapsack_diag_Q a capacity penalty Q0) z
      = quboEnergy Q0 z
        + ∑ u ∈ Finset.range a.length,
            (penalty * (a.getD u 0 * a.getD u 0 - 2 * (capacity : ℚ) * a.getD u 0)) * (z u * z u) := by
  unfold knapsack_diag_Q
  rw [energy_diag_fold, list_sum_map_range]

theorem quboEnergy_offdiag (a : List ℚ) (penalty : ℚ)
    (Q0 : List ((ℕ × ℕ) × ℚ)) (z : ℕ → ℚ) :
    quboEnergy (knapsack_offdiag_Q a penalty Q0) z
      = quboEnergy Q0 z
        + ∑ u ∈ Finset.range a.length, ∑ t ∈ Finset.range (a.length - (u + 1)),
            (2 * penalty * a.getD u 0 * a.getD (u + 1 + t) 0) * (z u * z (u + 1 + t)) := by
  unfold knapsack_offdiag_Q
  rw [energy_offdiag_fold]
  congr 1
  rw [list_sum_map_range]
  refine Finset.sum_congr rfl fun u _ => ?_
  rw [list_sum_map_range']

/-- C1: for equal-length weights and values, positive capacity and any penalty
weight, the QUBO returned by build_knapsack_qubo has, at every 0/1 assignment z
over the item and slack variables, the energy sum over all keys
Q[(i, j)] * z_i * z_j equal to
-sum_i v_i x_i + penalty * (sum_i w_i x_i + sum_k 2^k y_k - capacity)^2
- penalty * capacity^2, where x_i = z_i and y_k = z_(n_items + k); that is, the
expansion with diagonal terms penalty * (a_u^2 - 2 capacity a_u), off-diagonal
terms 2 penalty a_u a_v for u < v, the objective diagonal -v_i, and the
constant penalty * capacity^2 dropped. -/
theorem knapsack_qubo_energy_spec (weights : List ℤ) (values : List ℚ) (capacity : ℤ)
    (penalty : ℚ) (Q : List ((ℕ × ℕ) × ℚ))
    (hlen : weights.length = values.length) (hcap : 0 < capacity)
    (hQ : build_knapsack_qubo weights values capacity penalty = Except.ok Q)
    (z : ℕ → ℚ) (hz : ∀ u, z u = 0 ∨ z u = 1) :
    quboEnergy Q z =
      -(∑ i ∈ Finset.range weights.length, values.getD i 0 * z i)
        + penalty *
          ((∑ i ∈ Finset.range weights.length, ((weights.getD i 0 : ℤ) : ℚ) * z i
            + ∑ k ∈ Finset.range (m_slack capacity), (2 : ℚ) ^ k * z (weights.length + k))
            - (capacity : ℚ)) ^ 2
        - penalty * (capacity : ℚ) ^ 2 := by
  rw [build_knapsack_qubo] at hQ
  rw [if_neg (not_not_intro hlen), if_neg (not_le.mpr hcap)] at hQ
  simp only [Except.ok.injEq] at hQ
  subst hQ
  rw [quboEnergy_offdiag, quboEnergy_diag, quboEnergy_objective, ← hlen]
  have hobj : ∑ i ∈ Finset.range weights.length, (-(values.getD i 0)) * (z i * z i)
      = -(∑ i ∈ Finset.range weights.length, values.getD i 0 * z i) := by
    rw [← Finset.sum_neg_distrib]
    refine Finset.sum_congr rfl fun i _ => ?_
    rcases hz i with h | h <;> rw [h] <;> ring
  have hpen := penalty_expansion
    (fun u => (coeff_vector weights (m_slack capacity)).getD u 0) z
    penalty (capacity : ℚ) (coeff_vector weights (m_slack capacity)).length hz
  simp only [] at hpen
  have hT : ∑ u ∈ Finset.range (coeff_vector weights (m_slack capacity)).length,
        (coeff_vector weights (m_slack capacity)).getD u 0 * z u
      = ∑ i ∈ Finset.range weights.length, ((weights.getD i 0 : ℤ) : ℚ) * z i
        + ∑ k ∈ Finset.range (m_slack capacity), (2 : ℚ) ^ k * z (weights.length + k) := by
    rw [coeff_vector_length, sum_range_add_split]
    congr 1
    · refine Finset.sum_congr rfl fun i hi => ?_
      rw [coeff_vector_item weights _ i (Finset.mem_range.mp hi)]
    · refine Finset.sum_congr rfl fun k hk => ?_
      rw [coeff_vector_slack weights _ k (Finset.mem_range.mp hk)]
  rw [hT] at hpen
  rw [hobj, add_assoc, hpen]
  ring

-- ===== a fully evaluated example build =====

theorem build_example_eval :
    build_knapsack_qubo [2] [5] 1 1
      = Except.ok [((0, 0), (-5 : ℚ)), ((1, 1), -1), ((0, 1), 4)] := by
  have hm : m_slack 1 = 1 := by decide
  have hr1 : List.range 1 = [0] := by decide
  have hr2 : List.range 2 = [0, 1] := by decide
  have hr1' : List.range' 1 1 = [1] := by decide
  have hr2' : List.range' 2 0 = [] := by decide
  rw [build_knapsack_qubo]
  norm_num [hm, hr1, hr2, hr1', hr2', knapsack_objective_Q, knapsack_diag_Q,
    knapsack_offdiag_Q, coeff_vector, add_Q, dictAdd, Prod.mk.injEq,
    -Prod.mk_zero_zero, -Prod.mk_one_one]

/-- Witness for C1: the energy identity evaluated at weights [2], values [5],
capacity 1, penalty 1 and the assignment selecting only variable 0. -/
theorem knapsack_qubo_energy_spec_witness :
    quboEnergy [((0, 0), (-5 : ℚ)), ((1, 1), -1), ((0, 1), 4)]
        (fun u => if u = 0 then 1 else 0) = -5 := by
  have h := knapsack_qubo_energy_spec [2] [5] 1 1
    [((0, 0), (-5 : ℚ)), ((1, 1), -1), ((0, 1), 4)] rfl (by decide) build_example_eval
    (fun u => if u = 0 then 1 else 0)
    (fun u => by by_cases hu : u = 0 <;> simp [hu])
  rw [h]
  have hm : m_slack 1 = 1 := by decide
  rw [hm]
  norm_num [Finset.sum_range_one]

-- ===== slack bit sizing =====

theorem ceilLog2Fuel_eq_clog : ∀ (fuel n : ℕ), n ≤ fuel → ceilLog2Fuel fuel n = Nat.clog 2 n := by
  intro fuel
  induction fuel with
  | zero =>
    intro n hn
    have h0 : n = 0 := by omega
    subst h0
    simp [ceilLog2Fuel, Nat.clog_zero_right]
  | succ fuel ih =>
    intro n hn
    by_cases h1 : n ≤ 1
    · have : n = 0 ∨ n = 1 := by omega
      rcases this with h | h <;> subst h <;>
        simp [ceilLog2Fuel, Nat.clog_zero_right, Nat.clog_one_right]
    · have h2 : 2 ≤ n := by omega
      have hrec : Nat.clog 2 n = Nat.clog 2 ((n + 2 - 1) / 2) + 1 :=
        Nat.clog_of_two_le (by omega) h2
      have hfuel : (n + 1) / 2 ≤ fuel := by omega
      have harg : (n + 2 - 1) / 2 = (n + 1) / 2 := by omega
      rw [show ceilLog2Fuel (fuel + 1) n = ceilLog2Fuel fuel ((n + 1) / 2) + 1 from by
        rw [ceilLog2Fuel, if_neg h1]]
      rw [ih _ hfuel, hrec, harg]

theorem m_slack_eq_clog (capacity : ℤ) :
    m_slack capacity = Nat.clog 2 (capacity.toNat + 1) :=
  ceilLog2Fuel_eq_clog _ _ (le_refl _)

/-- C2: for every positive capacity, build_knapsack_qubo synthesizes exactly
ceil(log2(capacity + 1)) slack bits, i.e. the least m with capacity + 1 <= 2^m,
and the coefficient vector carries the slack coefficients 2^0 .. 2^(m-1)
appended directly after the n_items item coefficients; in particular
capacity 7 gives 3 slack bits and capacity 8 gives 4. -/
theorem m_slack_spec (capacity : ℤ) (hcap : 0 < capacity) :
    (capacity.toNat + 1 ≤ 2 ^ m_slack capacity
      ∧ ∀ m' : ℕ, capacity.toNat + 1 ≤ 2 ^ m' → m_slack capacity ≤ m')
    ∧ (∀ weights : List ℤ,
        (coeff_vector weights (m_slack capacity)).length
            = weights.length + m_slack capacity
        ∧ ∀ k, k < m_slack capacity →
            (coeff_vector weights (m_slack capacity)).getD (weights.length + k) 0
              = (2 : ℚ) ^ k)
    ∧ m_slack 7 = 3 ∧ m_slack 8 = 4 := by
  refine ⟨⟨?_, ?_⟩, fun weights => ⟨coeff_vector_length weights _, fun k hk =>
    coeff_vector_slack weights _ k hk⟩, by decide, by decide⟩
  · rw [m_slack_eq_clog]
    exact (Nat.le_pow_iff_clog_le (by omega)).mpr (le_refl _)
  · intro m' hm'
    rw [m_slack_eq_clog]
    exact (Nat.le_pow_iff_clog_le (by omega)).mp hm'

/-- Witness for C2: the slack sizing applied at capacity 7 with weights [2, 3],
plus the two concrete bit counts. -/
theorem m_slack_spec_witness :
    m_slack 7 ≤ 3
    ∧ (7 : ℤ).toNat + 1 ≤ 2 ^ m_slack 7
    ∧ (coeff_vector [2, 3] (m_slack 7)).getD (2 + 2) 0 = (2 : ℚ) ^ 2
    ∧ m_slack 7 = 3 ∧ m_slack 8 = 4 := by
  refine ⟨(m_slack_spec 7 (by decide)).1.2 3 (by decide),
    (m_slack_spec 7 (by decide)).1.1,
    ?_,
    (m_slack_spec 7 (by decide)).2.2.1,
    (m_slack_spec 7 (by decide)).2.2.2⟩
  have h := ((m_slack_spec 7 (by decide)).2.1 [2, 3]).2 2 (by decide)
  simpa using h

-- ===== canonical-form invariants of the accumulator =====

theorem mem_dictAdd {κ ν : Type} [DecidableEq κ] [Add ν] (l : List (κ × ν)) (k : κ) (v : ν) :
    ∀ p ∈ dictAdd l k v, p ∈ l ∨ p.1 = k := by
  induction l with
  | nil => intro p hp; simp [dictAdd] at hp; subst hp; simp
  | cons e rest ih =>
    intro p hp
    rw [dictAdd] at hp
    by_cases h : e.1 = k
    · rw [if_pos h] at hp
      rcases List.mem_cons.mp hp with h1 | h1
      · subst h1; right; rfl
      · left; exact List.mem_cons_of_mem _ h1
    · rw [if_neg h] at hp
      rcases List.mem_cons.mp hp with h1 | h1
      · subst h1; left; exact List.mem_cons_self _ _
      · rcases ih p h1 with h2 | h2
        · left; exact List.mem_cons_of_mem _ h2
        · right; exact h2

theorem dictAdd_map_fst {κ ν : Type} [DecidableEq κ] [Add ν]
    (l : List (κ × ν)) (k : κ) (v : ν) :
    (dictAdd l k v).map Prod.fst
      = if k ∈ l.map Prod.fst then l.map Prod.fst else l.map Prod.fst ++ [k] := by
  induction l with
  | nil => simp [dictAdd]
  | cons e rest ih =>
    rw [dictAdd]
    by_cases h : e.1 = k
    · rw [if_pos h]
      have hk : k ∈ (e :: rest).map Prod.fst := by
        simp [← h]
      rw [if_pos hk]
      simp [h]
    · rw [if_neg h]
      by_cases h2 : k ∈ rest.map Prod.fst
      · have hk : k ∈ (e :: rest).map Prod.fst := by
          simp [h2]
        rw [if_pos hk]
        simp only [List.map_cons, ih, if_pos h2]
      · have hk : ¬ k ∈ (e :: rest).map Prod.fst := by
          simp only [List.map_cons, List.mem_cons]
          push_neg
          exact ⟨fun he => h he.symm, h2⟩
        rw [if_neg hk]
        simp only [List.map_cons, ih, if_neg h2, List.cons_append]

theorem dictAdd_nodup_keys {κ ν : Type} [DecidableEq κ] [Add ν]
    (l : List (κ × ν)) (k : κ) (v : ν) (h : (l.map Prod.fst).Nodup) :
    ((dictAdd l k v).map Prod.fst).Nodup := by
  rw [dictAdd_map_fst]
  by_cases hk : k ∈ l.map Prod.fst
  · rw [if_pos hk]; exact h
  · rw [if_neg hk]
    rw [List.nodup_append]
    exact ⟨h, List.nodup_singleton _, by simpa using hk⟩

/-- The invariant preserved by every add_Q call: all stored keys are canonical
(first index at most second) and no key occurs twice. -/
def QuboCanon (Q : List ((ℕ × ℕ) × ℚ)) : Prop :=
  (∀ p ∈ Q, p.1.1 ≤ p.1.2) ∧ (Q.map Prod.fst).Nodup

theorem add_Q_preserves_canon (Q : List ((ℕ × ℕ) × ℚ)) (i j : ℕ) (v : ℚ)
    (h : QuboCanon Q) : QuboCanon (add_Q Q i j v) := by
  obtain ⟨h1, h2⟩ := h
  unfold add_Q
  split
  · exact ⟨fun p hp => by
      rcases mem_dictAdd Q (j, i) v p hp with hm | hm
      · exact h1 p hm
      · rw [hm]; omega,
    dictAdd_nodup_keys Q (j, i) v h2⟩
  · exact ⟨fun p hp => by
      rcases mem_dictAdd Q (i, j) v p hp with hm | hm
      · exact h1 p hm
      · rw [hm]; simp; omega,
    dictAdd_nodup_keys Q (i, j) v h2⟩

theorem foldl_preserves_canon {α : Type} (step : List ((ℕ × ℕ) × ℚ) → α → List ((ℕ × ℕ) × ℚ))
    (hstep : ∀ Q x, QuboCanon Q → QuboCanon (step Q x)) (l : List α) :
    ∀ Q0, QuboCanon Q0 → QuboCanon (l.foldl step Q0) := by
  induction l with
  | nil => intro Q0 h; exact h
  | cons x xs ih =>
    intro Q0 h
    rw [List.foldl_cons]
    exact ih _ (hstep Q0 x h)

/-- C3: every key (i, j) stored by build_knapsack_qubo satisfies i <= j, there
is exactly one entry per distinct unordered pair (the stored keys are
duplicate-free), and a contribution stated for (j, i) with j > i is
accumulated into the (i, j) entry: add_Q with swapped indices is the same
operation. -/
theorem build_knapsack_qubo_canonical (weights : List ℤ) (values : List ℚ)
    (capacity : ℤ) (penalty : ℚ) (Q : List ((ℕ × ℕ) × ℚ))
    (hQ : build_knapsack_qubo weights values capacity penalty = Except.ok Q) :
    (∀ p ∈ Q, p.1.1 ≤ p.1.2) ∧ (Q.map Prod.fst).Nodup
    ∧ ∀ (Qx : List ((ℕ × ℕ) × ℚ)) (i j : ℕ) (v : ℚ), j < i →
        add_Q Qx i j v = add_Q Qx j i v := by
  have hswap : ∀ (Qx : List ((ℕ × ℕ) × ℚ)) (i j : ℕ) (v : ℚ), j < i →
      add_Q Qx i j v = add_Q Qx j i v := by
    intro Qx i j v hji
    unfold add_Q
    rw [if_pos (by omega : i > j), if_neg (by omega : ¬ j > i)]
  rw [build_knapsack_qubo] at hQ
  by_cases h1 : weights.length ≠ values.length
  · rw [if_pos h1] at hQ
    exact absurd hQ (by simp)
  · rw [if_neg h1] at hQ
    by_cases h2 : capacity ≤ 0
    · rw [if_pos h2] at hQ
      exact absurd hQ (by simp)
    · rw [if_neg h2] at hQ
      simp only [Except.ok.injEq] at hQ
      subst hQ
      have hnil : QuboCanon [] := ⟨by simp, by simp⟩
      have hobj : QuboCanon (knapsack_objective_Q values) := by
        unfold knapsack_objective_Q
        exact foldl_preserves_canon _
          (fun Q x h => add_Q_preserves_canon Q x x _ h) _ _ hnil
      have hdiag : QuboCanon (knapsack_diag_Q (coeff_vector weights (m_slack capacity))
          capacity penalty (knapsack_objective_Q values)) := by
        unfold knapsack_diag_Q
        exact foldl_preserves_canon _
          (fun Q x h => add_Q_preserves_canon Q x x _ h) _ _ hobj
      have hoff : QuboCanon (knapsack_offdiag_Q (coeff_vector weights (m_slack capacity))
          penalty (knapsack_diag_Q (coeff_vector weights (m_slack capacity))
            capacity penalty (knapsack_objective_Q values))) := by
        unfold knapsack_offdiag_Q
        exact foldl_preserves_canon _
          (fun Q u h => foldl_preserves_canon _
            (fun Q' v h' => add_Q_preserves_canon Q' u v _ h') _ _ h) _ _ hdiag
      exact ⟨hoff.1, hoff.2, hswap⟩

/-- Witness for C3: the canonical-form facts on the concrete QUBO built from
weights [2], values [5], capacity 1, penalty 1, and a concrete swapped call. -/
theorem build_knapsack_qubo_canonical_witness :
    (([((0, 0), (-5 : ℚ)), ((1, 1), -1), ((0, 1), 4)]).map Prod.fst).Nodup
    ∧ add_Q [] 3 1 5 = add_Q [] 1 3 5 := by
  have h := build_knapsack_qubo_canonical [2] [5] 1 1 _ build_example_eval
  exact ⟨h.2.1, h.2.2 [] 3 1 5 (by omega)⟩

/-- C4: build_knapsack_qubo rejects mismatched lengths and non-positive
capacities with an immediate error and no partially built QUBO (the result is
only the error value), and accepts every input with matching lengths and
positive capacity. -/
theorem build_knapsack_qubo_validation (weights : List ℤ) (values : List ℚ)
    (capacity : ℤ) (penalty : ℚ) :
    (weights.length ≠ values.length →
      build_knapsack_qubo weights values capacity penalty
        = Except.error ("weights and values must have the same length"))
    ∧ (weights.length = values.length → capacity ≤ 0 →
      build_knapsack_qubo weights values capacity penalty
        = Except.error ("capacity must be a positive integer"))
    ∧ (weights.length = values.length → 0 < capacity →
      ∃ Q, build_knapsack_qubo weights values capacity penalty = Except.ok Q) := by
  refine ⟨fun h => ?_, fun h1 h2 => ?_, fun h1 h2 => ?_⟩
  · rw [build_knapsack_qubo, if_pos h]
  · rw [build_knapsack_qubo, if_neg (not_not_intro h1), if_pos h2]
  · rw [build_knapsack_qubo, if_neg (not_not_intro h1), if_neg (not_le.mpr h2)]
    exact ⟨_, rfl⟩

/-- Witness for C4: the three validation behaviours at concrete inputs. -/
theorem build_knapsack_qubo_validation_witness :
    build_knapsack_qubo [1] [] 1 1
        = Except.error ("weights and values must have the same length")
    ∧ build_knapsack_qubo [1] [1] 0 1
        = Except.error ("capacity must be a positive integer")
    ∧ build_knapsack_qubo [2] [5] 1 1
        = Except.ok [((0, 0), (-5 : ℚ)), ((1, 1), -1), ((0, 1), 4)] :=
  ⟨(build_knapsack_qubo_validation [1] [] 1 1).1 (by decide),
   (build_knapsack_qubo_validation [1] [1] 0 1).2.1 rfl (by decide),
   build_example_eval⟩

-- ===== lookup lemmas for accumulation =====

theorem dictLookup_nil {κ ν : Type} [DecidableEq κ] [Zero ν] (k : κ) :
    dictLookup ([] : List (κ × ν)) k = 0 := rfl

theorem dictLookup_dictAdd {κ ν : Type} [DecidableEq κ] [AddCommMonoid ν]
    (l : List (κ × ν)) (k k' : κ) (v : ν) :
    dictLookup (dictAdd l k v) k' = dictLookup l k' + (if k' = k then v else 0) := by
  induction l with
  | nil =>
    by_cases h : k' = k
    · subst h; simp [dictAdd, dictLookup, dictFind]
    · have h2 : ¬ k = k' := fun he => h he.symm
      simp [dictAdd, dictLookup, dictFind, h, h2]
  | cons e rest ih =>
    rw [dictAdd]
    by_cases h : e.1 = k
    · rw [if_pos h]
      by_cases h2 : k' = k
      · subst h2
        simp [dictLookup, dictFind, h]
      · have h3 : ¬ k = k' := fun he => h2 he.symm
        have h4 : ¬ e.1 = k' := by rw [h]; exact h3
        simp [dictLookup, dictFind, h2, h3, h4]
    · rw [if_neg h]
      by_cases h4 : e.1 = k'
      · have h5 : ¬ k' = k := fun he => h (h4.trans he)
        simp [dictLookup, dictFind, h4, h5]
      · simp only [dictLookup, dictFind, if_neg h4] at *
        exact ih

theorem add_Q_lookup_target (Q : List ((ℕ × ℕ) × ℚ)) (i j c1 c2 : ℕ) (v : ℚ)
    (hij : i ≤ j) (hc : (c1 = i ∧ c2 = j) ∨ (c1 = j ∧ c2 = i)) :
    dictLookup (add_Q Q c1 c2 v) (i, j) = dictLookup Q (i, j) + v := by
  unfold add_Q
  rcases hc with ⟨h1, h2⟩ | ⟨h1, h2⟩
  · rw [h1, h2, if_neg (by omega : ¬ i > j), dictLookup_dictAdd, if_pos rfl]
  · rw [h1, h2]
    by_cases h : j > i
    · rw [if_pos h, dictLookup_dictAdd, if_pos rfl]
    · have hji : j = i := by omega
      subst hji
      rw [if_neg h, dictLookup_dictAdd, if_pos rfl]

theorem add_Q_foldl_lookup (i j : ℕ) (hij : i ≤ j) (calls : List (ℕ × ℕ × ℚ))
    (hcalls : ∀ c ∈ calls, (c.1 = i ∧ c.2.1 = j) ∨ (c.1 = j ∧ c.2.1 = i)) :
    ∀ Q0, dictLookup (calls.foldl (fun Q c => add_Q Q c.1 c.2.1 c.2.2) Q0) (i, j)
      = dictLookup Q0 (i, j) + (calls.map (fun c => c.2.2)).sum := by
  induction calls with
  | nil => intro Q0; simp
  | cons c cs ih =>
    intro Q0
    rw [List.foldl_cons, List.map_cons, List.sum_cons,
      ih (fun d hd => hcalls d (List.mem_cons_of_mem _ hd)),
      add_Q_lookup_target Q0 i j c.1 c.2.1 c.2.2 hij (hcalls c (List.mem_cons_self _ _))]
    ring

/-- C9: accumulation in the QUBO builder is commutative and associative: for
any finite list of add_Q calls all targeting the same unordered pair (i, j),
the final coefficient stored for (i, j) is the initial coefficient plus the sum
of all the added values, and it is unchanged under any permutation of the call
order (exact rational arithmetic). -/
theorem add_Q_accumulation (i j : ℕ) (hij : i ≤ j) (calls : List (ℕ × ℕ × ℚ))
    (hcalls : ∀ c ∈ calls, (c.1 = i ∧ c.2.1 = j) ∨ (c.1 = j ∧ c.2.1 = i))
    (Q0 : List ((ℕ × ℕ) × ℚ)) :
    dictLookup (calls.foldl (fun Q c => add_Q Q c.1 c.2.1 c.2.2) Q0) (i, j)
      = dictLookup Q0 (i, j) + (calls.map (fun c => c.2.2)).sum
    ∧ ∀ calls' : List (ℕ × ℕ × ℚ), calls.Perm calls' →
        dictLookup (calls'.foldl (fun Q c => add_Q Q c.1 c.2.1 c.2.2) Q0) (i, j)
          = dictLookup (calls.foldl (fun Q c => add_Q Q c.1 c.2.1 c.2.2) Q0) (i, j) := by
  refine ⟨add_Q_foldl_lookup i j hij calls hcalls Q0, fun calls' hperm => ?_⟩
  have hcalls' : ∀ c ∈ calls', (c.1 = i ∧ c.2.1 = j) ∨ (c.1 = j ∧ c.2.1 = i) :=
    fun c hc => hcalls c (hperm.mem_iff.mpr hc)
  rw [add_Q_foldl_lookup i j hij calls hcalls Q0,
    add_Q_foldl_lookup i j hij calls' hcalls' Q0,
    (hperm.map (fun c => c.2.2)).sum_eq]

/-- Witness for C9: two calls on the pair (0, 1), one written as (1, 0),
accumulate to the sum of the values in either order. -/
theorem add_Q_accumulation_witness :
    dictLookup (([((0 : ℕ), (1 : ℕ), (2 : ℚ)), (1, 0, 3)]).foldl
        (fun Q c => add_Q Q c.1 c.2.1 c.2.2) []) (0, 1)
      = dictLookup ([] : List ((ℕ × ℕ) × ℚ)) (0, 1) + ((2 : ℚ) + 3)
    ∧ dictLookup (([((1 : ℕ), (0 : ℕ), (3 : ℚ)), (0, 1, 2)]).foldl
        (fun Q c => add_Q Q c.1 c.2.1 c.2.2) []) (0, 1)
      = dictLookup (([((0 : ℕ), (1 : ℕ), (2 : ℚ)), (1, 0, 3)]).foldl
          (fun Q c => add_Q Q c.1 c.2.1 c.2.2) []) (0, 1) := by
  have h := add_Q_accumulation 0 1 (by decide) [(0, 1, 2), (1, 0, 3)] (by decide) []
  refine ⟨?_, h.2 [(1, 0, 3), (0, 1, 2)] (List.Perm.swap _ _ _)⟩
  have h1 := h.1
  simpa using h1

-- ===== decoders (decoders.py) =====

/-- decode_knapsack_solution (decoders.py): reads the item bits of a sample
with missing keys treated as 0, and returns the chosen items with their total
weight and total value. -/
def decode_knapsack_solution (sample : List (ℕ × ℤ)) (weights : List ℤ)
    (values : List ℚ) : List ℕ × ℤ × ℚ :=
  let n_items := weights.length
  let chosen_items := (List.range n_items).filter
    (fun i => decide (dictLookup sample i = 1))
  let total_weight := (chosen_items.map (fun i => weights.getD i 0)).sum
  let total_value := (chosen_items.map (fun i => values.getD i 0)).sum
  (chosen_items, total_weight, total_value)

/-- decode_assignment_solution (decoders.py): reads the worker-job bits of a
sample with missing keys treated as 0, and returns the assignment pairs with
their total cost. -/
def decode_assignment_solution (sample : List (ℕ × ℤ)) (costs : List (List ℚ)) :
    List (ℕ × ℕ) × ℚ :=
  let n_workers := costs.length
  let n_jobs := (costs.getD 0 []).length
  let assignments := ((List.range n_workers).map (fun i =>
      ((List.range n_jobs).filter
        (fun j => decide (dictLookup sample (i * n_jobs + j) = 1))).map
        (fun j => (i, j)))).flatten
  let total_cost := (assignments.map (fun p => (costs.getD p.1 []).getD p.2 0)).sum
  (assignments, total_cost)

/-- check_knapsack_constraints (decoders.py): recomputes the selected weight
directly from the item bits and compares it with the capacity. -/
def check_knapsack_constraints (sample : List (ℕ × ℤ)) (weights : List ℤ)
    (capacity : ℤ) : Bool × ℤ :=
  let total_weight := (((List.range weights.length).filter
      (fun i => decide (dictLookup sample i = 1))).map (fun i => weights.getD i 0)).sum
  (decide (total_weight ≤ capacity), total_weight)

theorem dictLookup_append_zeros (s : List (ℕ × ℤ)) (K : List ℕ) (u : ℕ) :
    dictLookup (s ++ K.map (fun k => (k, (0 : ℤ)))) u = dictLookup s u := by
  induction s with
  | nil =>
    rw [List.nil_append, dictLookup_nil]
    induction K with
    | nil => rfl
    | cons k ks ih =>
      rw [List.map_cons]
      by_cases h : k = u
      · subst h; simp [dictLookup, dictFind]
      · simp only [dictLookup, dictFind, if_neg h] at *
        exact ih
  | cons e rest ih =>
    rw [List.cons_append]
    by_cases h : e.1 = u
    · simp [dictLookup, dictFind, h]
    · simp only [dictLookup, dictFind, if_neg h] at *
      exact ih

/-- C5: decode_knapsack_solution and decode_assignment_solution return
exactly the same result on a sample s as on s extended with explicit 0
entries for any set of keys absent from s; a missing key is read as bit 0
and never causes an error (the decoders are total). -/
theorem decoders_missing_keys_as_zero (s : List (ℕ × ℤ)) (K : List ℕ)
    (hK : ∀ k ∈ K, dictFind s k = (none : Option ℤ))
    (weights : List ℤ) (values : List ℚ) (costs : List (List ℚ)) :
    decode_knapsack_solution (s ++ K.map (fun k => (k, 0))) weights values
        = decode_knapsack_solution s weights values
    ∧ decode_assignment_solution (s ++ K.map (fun k => (k, 0))) costs
        = decode_assignment_solution s costs := by
  constructor
  · unfold decode_knapsack_solution
    simp only [dictLookup_append_zeros]
  · unfold decode_assignment_solution
    simp only [dictLookup_append_zeros]

/-- Witness for C5: a concrete sample with keys 2 and 3 absent decodes
identically with and without explicit zeros for those keys. -/
theorem decoders_missing_keys_as_zero_witness :
    decode_knapsack_solution ([(0, 1)] ++ [2, 3].map (fun k => (k, 0))) [2, 3] [3, 4]
        = decode_knapsack_solution [(0, 1)] [2, 3] [3, 4]
    ∧ decode_assignment_solution ([(0, 1)] ++ [2, 3].map (fun k => (k, 0)))
          [[1, 2], [3, 4]]
        = decode_assignment_solution [(0, 1)] [[1, 2], [3, 4]] :=
  decoders_missing_keys_as_zero [(0, 1)] [2, 3] (by decide) [2, 3] [3, 4]
    [[1, 2], [3, 4]]

theorem filter_map_sum_ite (p : ℕ → Bool) (f : ℕ → ℤ) (l : List ℕ) :
    ((l.filter p).map f).sum = (l.map (fun i => if p i then f i else 0)).sum := by
  induction l with
  | nil => rfl
  | cons x xs ih =>
    by_cases h : p x <;> simp [List.filter_cons, h, ih]

theorem dictLookup_high_keys_nil (t : List (ℕ × ℤ)) (n i : ℕ)
    (ht : ∀ p ∈ t, n ≤ p.1) (hi : i < n) : dictLookup t i = 0 := by
  induction t with
  | nil => rfl
  | cons e rest ih =>
    have h : ¬ e.1 = i := by
      have := ht e (List.mem_cons_self _ _)
      omega
    simp only [dictLookup, dictFind, if_neg h] at *
    exact ih (fun p hp => ht p (List.mem_cons_of_mem _ hp))

theorem dictLookup_append_high (s t : List (ℕ × ℤ)) (n : ℕ)
    (ht : ∀ p ∈ t, n ≤ p.1) (i : ℕ) (hi : i < n) :
    dictLookup (s ++ t) i = dictLookup s i := by
  induction s with
  | nil =>
    rw [List.nil_append, dictLookup_nil]
    exact dictLookup_high_keys_nil t n i ht hi
  | cons e rest ih =>
    rw [List.cons_append]
    by_cases h : e.1 = i
    · simp [dictLookup, dictFind, h]
    · simp only [dictLookup, dictFind, if_neg h] at *
      exact ih

/-- C6: check_knapsack_constraints returns (feasible, total_weight) where
total_weight is the sum of weights[i] over the item indices i < len(weights)
whose bit reads 1 (missing keys read as 0), feasible is true exactly when
total_weight <= capacity, entries of the sample at indices beyond the item
range (the slack bits) never affect the result, and on weights [2, 3, 4],
capacity 5 and a sample selecting items 0 and 1 it returns (true, 5). -/
theorem check_knapsack_constraints_spec (sample : List (ℕ × ℤ)) (weights : List ℤ)
    (capacity : ℤ) :
    (check_knapsack_constraints sample weights capacity).2
        = ∑ i ∈ Finset.range weights.length,
            (if dictLookup sample i = 1 then weights.getD i 0 else 0)
    ∧ ((check_knapsack_constraints sample weights capacity).1 = true
        ↔ (check_knapsack_constraints sample weights capacity).2 ≤ capacity)
    ∧ (∀ t : List (ℕ × ℤ), (∀ p ∈ t, weights.length ≤ p.1) →
        check_knapsack_constraints (sample ++ t) weights capacity
          = check_knapsack_constraints sample weights capacity)
    ∧ check_knapsack_constraints [(0, 1), (1, 1)] [2, 3, 4] 5 = (true, 5) := by
  refine ⟨?_, ?_, ?_, by decide⟩
  · show (((List.range weights.length).filter
        (fun i => decide (dictLookup sample i = 1))).map (fun i => weights.getD i 0)).sum = _
    rw [filter_map_sum_ite, list_sum_map_range]
    refine Finset.sum_congr rfl fun i _ => ?_
    by_cases h : dictLookup sample i = 1 <;> simp [h]
  · show (decide _ = true) ↔ _
    exact decide_eq_true_iff
  · intro t ht
    unfold check_knapsack_constraints
    have hfilter : (List.range weights.length).filter
          (fun i => decide (dictLookup (sample ++ t) i = 1))
        = (List.range weights.length).filter
          (fun i => decide (dictLookup sample i = 1)) := by
      refine List.filter_congr fun i hi => ?_
      rw [dictLookup_append_high sample t weights.length ht i (List.mem_range.mp hi)]
    rw [hfilter]

/-- Witness for C6: slack-index entries do not change the result, and the
spec example weights [2, 3, 4], capacity 5, items 0 and 1 selected gives
(true, 5). -/
theorem check_knapsack_constraints_spec_witness :
    check_knapsack_constraints ([(0, 1), (1, 1)] ++ [(5, 1)]) [2, 3, 4] 5
        = check_knapsack_constraints [(0, 1), (1, 1)] [2, 3, 4] 5
    ∧ check_knapsack_constraints [(0, 1), (1, 1)] [2, 3, 4] 5 = (true, 5) :=
  ⟨(check_knapsack_constraints_spec [(0, 1), (1, 1)] [2, 3, 4] 5).2.2.1
      [(5, 1)] (by decide),
   (check_knapsack_constraints_spec [(0, 1), (1, 1)] [2, 3, 4] 5).2.2.2⟩

-- ===== energy histogram (main.py) =====

/-- Comparison of energy-count bins by energy, the sort key of
build_energy_histogram. -/
def energyLe (x y : ℚ × ℤ) : Prop := x.1 ≤ y.1

instance : DecidableRel energyLe :=
  fun x y => inferInstanceAs (Decidable (x.1 ≤ y.1))

instance : IsTotal (ℚ × ℤ) energyLe :=
  ⟨fun a b => le_total a.1 b.1⟩

instance : IsTrans (ℚ × ℤ) energyLe :=
  ⟨fun _ _ _ h1 h2 => le_trans h1 h2⟩

/-- The defaultdict loop of build_energy_histogram (main.py):
energy_counts[float(e)] += int(c) over the records of the sample set. -/
def accumulate_energy_counts (records : List (ℚ × ℤ)) : List (ℚ × ℤ) :=
  records.foldl (fun acc r => dictAdd acc r.1 r.2) []

/-- build_energy_histogram (main.py): merges occurrence counts per
float-equal energy into a dict and returns the bins sorted ascending by
energy (the second bins.sort of the source is a no-op on an already sorted
list and is absorbed into the single stable sort). -/
def build_energy_histogram (records : List (ℚ × ℤ)) : List (ℚ × ℤ) :=
  List.insertionSort energyLe (accumulate_energy_counts records)

theorem dictAdd_snd_sum {κ ν : Type} [DecidableEq κ] [AddCommMonoid ν]
    (l : List (κ × ν)) (k : κ) (v : ν) :
    ((dictAdd l k v).map Prod.snd).sum = (l.map Prod.snd).sum + v := by
  induction l with
  | nil => simp [dictAdd]
  | cons e rest ih =>
    rw [dictAdd]
    by_cases h : e.1 = k
    · rw [if_pos h]
      simp only [List.map_cons, List.sum_cons]
      abel
    · rw [if_neg h]
      simp only [List.map_cons, List.sum_cons, ih]
      abel

theorem dictLookup_of_mem_nodup {κ ν : Type} [DecidableEq κ] [Zero ν]
    (l : List (κ × ν)) (h : (l.map Prod.fst).Nodup) (p : κ × ν) (hp : p ∈ l) :
    dictLookup l p.1 = p.2 := by
  induction l with
  | nil => cases hp
  | cons e rest ih =>
    rw [List.map_cons, List.nodup_cons] at h
    rcases List.mem_cons.mp hp with h1 | h1
    · subst h1; simp [dictLookup, dictFind]
    · have hne : ¬ e.1 = p.1 := by
        intro he
        exact h.1 (he ▸ List.mem_map_of_mem Prod.fst h1)
      simp only [dictLookup, dictFind, if_neg hne]
      exact ih h.2 h1

theorem accum_fold_lookup (records : List (ℚ × ℤ)) :
    ∀ (acc : List (ℚ × ℤ)) (e : ℚ),
      dictLookup (records.foldl (fun a r => dictAdd a r.1 r.2) acc) e
        = dictLookup acc e
          + ((records.filter (fun r => decide (r.1 = e))).map Prod.snd).sum := by
  induction records with
  | nil => intro acc e; simp
  | cons r rs ih =>
    intro acc e
    rw [List.foldl_cons, ih, dictLookup_dictAdd, List.filter_cons]
    by_cases h : r.1 = e
    · rw [if_pos h.symm, if_pos (by simpa using h), List.map_cons, List.sum_cons]
      ring
    · have h2 : ¬ e = r.1 := fun he => h he.symm
      rw [if_neg h2, if_neg (by simpa using h), add_zero]

theorem accum_fold_keys (records : List (ℚ × ℤ)) :
    ∀ (acc : List (ℚ × ℤ)) (e : ℚ),
      (e ∈ (records.foldl (fun a r => dictAdd a r.1 r.2) acc).map Prod.fst
        ↔ e ∈ acc.map Prod.fst ∨ e ∈ records.map Prod.fst) := by
  induction records with
  | nil => intro acc e; simp
  | cons r rs ih =>
    intro acc e
    rw [List.foldl_cons, ih, dictAdd_map_fst]
    by_cases h : r.1 ∈ acc.map Prod.fst
    · rw [if_pos h]
      simp only [List.map_cons, List.mem_cons]
      constructor
      · rintro (h1 | h1)
        · exact Or.inl h1
        · exact Or.inr (Or.inr h1)
      · rintro (h1 | h1 | h1)
        · exact Or.inl h1
        · exact Or.inl (by rw [h1]; exact h)
        · exact Or.inr h1
    · rw [if_neg h]
      simp only [List.map_cons, List.mem_cons, List.mem_append, List.mem_singleton]
      tauto

theorem accum_fold_nodup (records : List (ℚ × ℤ)) :
    ∀ acc : List (ℚ × ℤ), (acc.map Prod.fst).Nodup →
      ((records.foldl (fun a r => dictAdd a r.1 r.2) acc).map Prod.fst).Nodup := by
  induction records with
  | nil => intro acc h; exact h
  | cons r rs ih =>
    intro acc h
    rw [List.foldl_cons]
    exact ih _ (dictAdd_nodup_keys acc r.1 r.2 h)

theorem accum_fold_sum (records : List (ℚ × ℤ)) :
    ∀ acc : List (ℚ × ℤ),
      ((records.foldl (fun a r => dictAdd a r.1 r.2) acc).map Prod.snd).sum
        = (acc.map Prod.snd).sum + (records.map Prod.snd).sum := by
  induction records with
  | nil => intro acc; simp
  | cons r rs ih =>
    intro acc
    rw [List.foldl_cons, ih, dictAdd_snd_sum, List.map_cons, List.sum_cons]
    ring

/-- C7: the bins returned by build_energy_histogram are strictly ascending by
energy (hence duplicate-free), every bin carries the sum of the occurrence
counts of all records whose energy is exactly equal to the bin energy, and the
bin energies are exactly the record energies. -/
theorem build_energy_histogram_spec (records : List (ℚ × ℤ)) :
    List.Pairwise (fun x y : ℚ × ℤ => x.1 < y.1) (build_energy_histogram records)
    ∧ (∀ p ∈ build_energy_histogram records,
        p.2 = ((records.filter (fun r => decide (r.1 = p.1))).map Prod.snd).sum)
    ∧ (∀ e : ℚ, e ∈ (build_energy_histogram records).map Prod.fst
        ↔ e ∈ records.map Prod.fst) := by
  have hperm : (build_energy_histogram records).Perm (accumulate_energy_counts records) :=
    List.perm_insertionSort energyLe _
  have hnodup : ((accumulate_energy_counts records).map Prod.fst).Nodup :=
    accum_fold_nodup records [] (by simp)
  have hnodup' : ((build_energy_histogram records).map Prod.fst).Nodup :=
    ((hperm.map Prod.fst).nodup_iff).mpr hnodup
  have hsorted : List.Pairwise energyLe (build_energy_histogram records) :=
    List.sorted_insertionSort energyLe _
  refine ⟨?_, ?_, ?_⟩
  · have hne : List.Pairwise (fun x y : ℚ × ℤ => x.1 ≠ y.1)
        (build_energy_histogram records) := List.pairwise_map.mp hnodup'
    exact (hsorted.and hne).imp (fun h => lt_of_le_of_ne h.1 h.2)
  · intro p hp
    have hpacc : p ∈ accumulate_energy_counts records := hperm.subset hp
    have h1 : dictLookup (accumulate_energy_counts records) p.1 = p.2 :=
      dictLookup_of_mem_nodup _ hnodup p hpacc
    have h2 := accum_fold_lookup records [] p.1
    rw [dictLookup_nil, zero_add] at h2
    rw [← h1]
    exact h2
  · intro e
    rw [(hperm.map Prod.fst).mem_iff]
    have h := accum_fold_keys records [] e
    simpa using h

/-- Witness for C7: two records of equal energy 1 with counts 2 and 3 merge
into a single bin carrying count 5, and the bin energies match the record
energies. -/
theorem build_energy_histogram_spec_witness :
    ((1 : ℚ), (5 : ℤ)).2
        = (([((1 : ℚ), (2 : ℤ)), (1, 3)].filter
            (fun r => decide (r.1 = ((1 : ℚ), (5 : ℤ)).1))).map Prod.snd).sum
    ∧ ((2 : ℚ) ∈ (build_energy_histogram [((1 : ℚ), (2 : ℤ)), (1, 3)]).map Prod.fst
        ↔ (2 : ℚ) ∈ ([((1 : ℚ), (2 : ℤ)), (1, 3)]).map Prod.fst) := by
  have h := build_energy_histogram_spec [((1 : ℚ), (2 : ℤ)), (1, 3)]
  exact ⟨h.2.1 ((1 : ℚ), (5 : ℤ)) (by decide), h.2.2 2⟩

/-- C10: histogram aggregation conserves occurrence counts: the sum of the
counts over all bins returned by build_energy_histogram equals the sum of the
num_occurrences over all input records. -/
theorem build_energy_histogram_count_total (records : List (ℚ × ℤ)) :
    ((build_energy_histogram records).map Prod.snd).sum
      = (records.map Prod.snd).sum := by
  have hperm : (build_energy_histogram records).Perm (accumulate_energy_counts records) :=
    List.perm_insertionSort energyLe _
  rw [(hperm.map Prod.snd).sum_eq]
  have h := accum_fold_sum records []
  simpa using h

-- ===== solver configuration merge (solver.py) =====

/-- Default sampling configuration set by SolverBase.__init__ (solver.py):
num_reads = 10. Configuration values are modelled as integers. -/
def SolverBase_default_config : List (String × ℤ) := [("num_reads", 10)]

/-- Python double-splat dict merge of d and s with s taking precedence: the
keys of d in order with values overridden by s where present, followed by the
keys of s absent from d, in order. -/
def dictMerge (d s : List (String × ℤ)) : List (String × ℤ) :=
  d.map (fun e => match dictFind s e.1 with
    | some v => (e.1, v)
    | none => e)
  ++ s.filter (fun e => decide (dictFind d e.1 = none))

/-- _merge_config (solver.py): a copy of the solver defaults when no config is
given, otherwise the defaults overridden by the caller configuration. -/
def _merge_config (self_config : List (String × ℤ)) :
    Option (List (String × ℤ)) → List (String × ℤ)
  | none => self_config
  | some s => dictMerge self_config s

theorem dictFind_append {κ ν : Type} [DecidableEq κ] (l1 l2 : List (κ × ν)) (k : κ) :
    dictFind (l1 ++ l2) k
      = match dictFind l1 k with
        | some v => some v
        | none => dictFind l2 k := by
  induction l1 with
  | nil => rfl
  | cons e rest ih =>
    rw [List.cons_append]
    by_cases h : e.1 = k
    · simp [dictFind, h]
    · simp only [dictFind, if_neg h]
      exact ih

theorem dictFind_mapOverride (d s : List (String × ℤ)) (k : String) :
    dictFind (d.map (fun e => match dictFind s e.1 with
        | some v => (e.1, v)
        | none => e)) k
      = match dictFind d k with
        | none => none
        | some w => some (match dictFind s k with | some v => v | none => w) := by
  induction d with
  | nil => rfl
  | cons e rest ih =>
    rw [List.map_cons]
    cases hsv : dictFind s e.1 with
    | none =>
      by_cases h : e.1 = k
      · subst h
        simp [dictFind, hsv]
      · simp only [dictFind, if_neg h]
        exact ih
    | some v =>
      by_cases h : e.1 = k
      · subst h
        simp [dictFind, hsv]
      · simp only [dictFind, if_neg h]
        exact ih

theorem dictFind_filter_key {κ ν : Type} [DecidableEq κ] (p : κ → Bool)
    (s : List (κ × ν)) (k : κ) :
    dictFind (s.filter (fun e => p e.1)) k = if p k then dictFind s k else none := by
  induction s with
  | nil => simp [dictFind]
  | cons e rest ih =>
    by_cases h : e.1 = k
    · subst h
      by_cases hp : p e.1
      · simp [List.filter_cons, hp, dictFind]
      · simp [List.filter_cons, hp, dictFind, ih]
    · by_cases hp : p e.1
      · simp [List.filter_cons, hp, dictFind, h, ih]
      · simp [List.filter_cons, hp, dictFind, h, ih]

theorem dictFind_dictMerge (d s : List (String × ℤ)) (k : String) :
    dictFind (dictMerge d s) k
      = match dictFind s k with
        | some v => some v
        | none => dictFind d k := by
  unfold dictMerge
  rw [dictFind_append, dictFind_mapOverride,
    dictFind_filter_key (fun x => decide (dictFind d x = none)) s k]
  cases hd : dictFind d k with
  | none =>
    cases hs : dictFind s k with
    | none => simp [hd, hs]
    | some v => simp [hd, hs]
  | some w =>
    cases hs : dictFind s k with
    | none => simp [hd, hs]
    | some v => simp [hd, hs]

/-- C8: with the SolverBase default configuration, _merge_config returns the
defaults exactly when the caller passes no configuration; otherwise every key
present in the caller configuration keeps its caller value and every key
absent from it falls back to its default value. -/
theorem merge_config_spec (s : List (String × ℤ)) :
    _merge_config SolverBase_default_config none = SolverBase_default_config
    ∧ (∀ (k : String) (v : ℤ), dictFind s k = some v →
        dictFind (_merge_config SolverBase_default_config (some s)) k = some v)
    ∧ (∀ k : String, dictFind s k = none →
        dictFind (_merge_config SolverBase_default_config (some s)) k
          = dictFind SolverBase_default_config k) := by
  refine ⟨rfl, fun k v hv => ?_, fun k hk => ?_⟩
  · show dictFind (dictMerge SolverBase_default_config s) k = some v
    rw [dictFind_dictMerge, hv]
  · show dictFind (dictMerge SolverBase_default_config s) k
      = dictFind SolverBase_default_config k
    rw [dictFind_dictMerge, hk]

/-- Witness for C8: merging a configuration that overrides num_reads and adds
a new key keeps the caller values and falls back to the default elsewhere. -/
theorem merge_config_spec_witness :
    _merge_config SolverBase_default_config none = SolverBase_default_config
    ∧ dictFind (_merge_config SolverBase_default_config
        (some [("num_reads", 50), ("beta", 2)])) ("num_reads") = some 50
    ∧ dictFind (_merge_config SolverBase_default_config
        (some [("num_reads", 50), ("beta", 2)])) ("schedule")
      = dictFind SolverBase_default_config ("schedule") :=
  ⟨(merge_config_spec []).1,
   (merge_config_spec [("num_reads", 50), ("beta", 2)]).2.1 ("num_reads") 50 (by decide),
   (merge_config_spec [("num_reads", 50), ("beta", 2)]).2.2 ("schedule") (by decide)⟩
